import Mathlib

/-!
Shallow embedding of `src/LINKEDLIST/src/linkedlist.c` (singly linked list
container).  A node's payload is the byte sequence `memcpy` copied out of the
caller's buffer; the list state is the chain of payloads reachable from `head`
together with the `data_size` field, exactly the fields of `struct sllist`.
Pointer arguments that the C code may receive as `NULL` are modelled as
`Option`; a `NULL` dereference is the distinguished outcome `CRes.ub`; the two
`malloc` calls of every insert operation are given explicit success flags, and
the instrumented versions also report how many heap blocks the call obtained
from `malloc` and how many it passed to `free`.
-/

/-- A caller buffer reached through a `void*`: the byte stored at each offset. -/
def Buf : Type := Nat → Nat

/-- Result of `memcpy(dst, src, n)` as seen in `dst`: the first `n` bytes of `src`. -/
def memcpy (src : Buf) (n : Nat) : List Nat :=
  (List.range n).map src

/-- The list descriptor `struct sllist`: the chain of node payloads reachable
from `head` (each `sll_node` holds one payload and owns its successor), and the
`data_size` field set at creation. -/
structure sllist where
  head : List (List Nat)
  data_size : Nat
deriving DecidableEq, Repr

/-- Outcome of one C call: a normal return carrying the post-state, or
undefined behaviour (a `NULL`-pointer dereference). -/
inductive CRes (α : Type) where
  | ok : α → CRes α
  | ub : CRes α
deriving DecidableEq, Repr

/-- `sllist_create` (linkedlist.c:19-27), success path of its `malloc`:
head is `NULL`, `data_size` is the argument. -/
def sllist_create (data_size : Nat) : sllist :=
  { head := [], data_size := data_size }

/-- `insert_front` (linkedlist.c:43-62), success path (valid pointers, both
allocations succeed): the copied payload becomes the new head, the prior head
its successor. -/
def insert_front (l : sllist) (d : Buf) : sllist :=
  { l with head := memcpy d l.data_size :: l.head }

/-- The append loop of `insert_end` (linkedlist.c:96-104): if `head` is `NULL`
the new node becomes the head, otherwise walk to the last node and link. -/
def sll_append_last (payload : List Nat) : List (List Nat) → List (List Nat)
  | [] => [payload]
  | c :: rest => c :: sll_append_last payload rest

/-- `insert_end` (linkedlist.c:78-105), success path. -/
def insert_end (l : sllist) (d : Buf) : sllist :=
  { l with head := sll_append_last (memcpy d l.data_size) l.head }

/-- The walk of `insert_at_index` for `index > 0` (linkedlist.c:149-166),
viewed from `current = head` with `steps = index - 1` iterations left:
a `NULL` current aborts (`none`, the node is freed); otherwise after the walk
the new node is linked right after `current`. -/
def sll_insert_walk (payload : List Nat) : Nat → List (List Nat) → Option (List (List Nat))
  | 0, [] => none
  | 0, c :: rest => some (c :: payload :: rest)
  | _ + 1, [] => none
  | s + 1, c :: rest => (sll_insert_walk payload s rest).map (c :: ·)

/-- `insert_at_index` (linkedlist.c:125-167), success path of the two
allocations: `index == 0` links at the front, otherwise the walk decides. -/
def insert_at_index (l : sllist) (d : Buf) (index : Nat) : sllist :=
  if index = 0 then { l with head := memcpy d l.data_size :: l.head }
  else
    match sll_insert_walk (memcpy d l.data_size) (index - 1) l.head with
    | none => l
    | some chain => { l with head := chain }

/-- `free_at_front` (linkedlist.c:203-212): no-op on an empty list, otherwise
the head node is unlinked and freed. -/
def free_at_front (l : sllist) : sllist :=
  match l.head with
  | [] => l
  | _ :: rest => { l with head := rest }

/-- The walk of `free_at_end` for lists of two or more nodes
(linkedlist.c:236-243): advance while `current->next->next` is not `NULL`,
then free `current->next` and clear the link. -/
def sll_drop_last : List (List Nat) → List (List Nat)
  | [] => []
  | [_] => []
  | c :: d :: rest => c :: sll_drop_last (d :: rest)

/-- `free_at_end` (linkedlist.c:224-244): no-op on an empty list, a
single-node list has its head freed and cleared, otherwise the walk drops the
last node. -/
def free_at_end (l : sllist) : sllist :=
  match l.head with
  | [] => l
  | [_] => { l with head := [] }
  | c :: d :: rest => { l with head := c :: sll_drop_last (d :: rest) }

/-- The walk of `free_at_index` for `index > 0` (linkedlist.c:270-285), viewed
from `current = head` with `steps = index - 1` iterations left: return (`none`)
when `current->next` is `NULL`, else after the walk unlink and free
`current->next`. -/
def sll_remove_walk : Nat → List (List Nat) → Option (List (List Nat))
  | _, [] => none
  | 0, [_] => none
  | 0, c :: _ :: rest => some (c :: rest)
  | _ + 1, [_] => none
  | s + 1, c :: d :: rest => (sll_remove_walk s (d :: rest)).map (c :: ·)

/-- `free_at_index` (linkedlist.c:260-286): no-op on an empty list,
`index == 0` delegates to `free_at_front`, otherwise the walk decides. -/
def free_at_index (l : sllist) (index : Nat) : sllist :=
  match l.head with
  | [] => l
  | _ :: _ =>
    if index = 0 then free_at_front l
    else
      match sll_remove_walk (index - 1) l.head with
      | none => l
      | some chain => { l with head := chain }

/-- The counting loop of `sll_len` (linkedlist.c:300-308). -/
def sll_len_loop : List (List Nat) → Nat
  | [] => 0
  | _ :: rest => sll_len_loop rest + 1

/-- `sll_len` (linkedlist.c:300-308): walk the chain counting nodes. -/
def sll_len (l : sllist) : Nat :=
  sll_len_loop l.head

/-- One observable output action of `print_sllist`: a call of the
caller-supplied `print_func` on one element's stored data, or a `printf` done
by `print_sllist` itself. -/
inductive OutEvent (Out : Type) where
  | visit : Out → OutEvent Out
  | emit : String → OutEvent Out
deriving DecidableEq, Repr

/-- The traversal loop of `print_sllist` (linkedlist.c:323-327): call
`print_func` on each node's data, head to tail.  Only the local cursor
`current` moves; the list itself is not written to. -/
def print_loop {Out : Type} (f : List Nat → Out) : List (List Nat) → List (OutEvent Out)
  | [] => []
  | d :: rest => OutEvent.visit (f d) :: print_loop f rest

/-- `print_sllist` (linkedlist.c:322-329): the trace of output actions — the
visitor calls of the loop followed by the unconditional `printf("NULL\n")`. -/
def print_sllist {Out : Type} (l : sllist) (f : List Nat → Out) : List (OutEvent Out) :=
  print_loop f l.head ++ [OutEvent.emit "NULL\n"]

/-- Full transcription of `insert_front` (linkedlist.c:43-62): the
`!list || !data` guard returns with no action; `a1`/`a2` are the success of
the node and payload `malloc`s.  Besides the call outcome the pair counts the
heap blocks the call obtained from `malloc` and the blocks it passed to
`free` (a block linked into the list is obtained, not freed). -/
def insert_front_c (a1 a2 : Bool) (list : Option sllist) (data : Option Buf) :
    CRes (Option sllist) × Nat × Nat :=
  match list, data with
  | some l, some d =>
    if a1 = false then (CRes.ok (some l), 0, 0)
    else if a2 = false then (CRes.ok (some l), 1, 1)
    else (CRes.ok (some (insert_front l d)), 2, 0)
  | _, _ => (CRes.ok list, 0, 0)

/-- Full transcription of `insert_end` (linkedlist.c:78-105): same guard and
allocation structure as `insert_front_c`, then the append loop. -/
def insert_end_c (a1 a2 : Bool) (list : Option sllist) (data : Option Buf) :
    CRes (Option sllist) × Nat × Nat :=
  match list, data with
  | some l, some d =>
    if a1 = false then (CRes.ok (some l), 0, 0)
    else if a2 = false then (CRes.ok (some l), 1, 1)
    else (CRes.ok (some (insert_end l d)), 2, 0)
  | _, _ => (CRes.ok list, 0, 0)

/-- Full transcription of `insert_at_index` (linkedlist.c:125-167): guard,
the two allocations, then the `index == 0` branch or the walk; when the walk
runs off the end both the payload and the node are freed (lines 150-163). -/
def insert_at_index_c (a1 a2 : Bool) (list : Option sllist) (data : Option Buf)
    (index : Nat) : CRes (Option sllist) × Nat × Nat :=
  match list, data with
  | some l, some d =>
    if a1 = false then (CRes.ok (some l), 0, 0)
    else if a2 = false then (CRes.ok (some l), 1, 1)
    else if index = 0 then (CRes.ok (some (insert_at_index l d 0)), 2, 0)
    else
      match sll_insert_walk (memcpy d l.data_size) (index - 1) l.head with
      | none => (CRes.ok (some l), 2, 2)
      | some chain => (CRes.ok (some { l with head := chain }), 2, 0)
  | _, _ => (CRes.ok list, 0, 0)

/-- `free_sllist` (linkedlist.c:179-191): `current = list->head` dereferences
the list pointer with no guard, so a `NULL` list is undefined behaviour;
otherwise every node is freed and the descriptor released (the handle is gone,
hence no post-state). -/
def free_sllist_c (list : Option sllist) : CRes Unit :=
  match list with
  | none => CRes.ub
  | some _ => CRes.ok ()

/-- `free_at_front` seen from the call site (linkedlist.c:203-212): the body
reads `list->head` with no `NULL` guard on `list` itself. -/
def free_at_front_c (list : Option sllist) : CRes (Option sllist) :=
  match list with
  | none => CRes.ub
  | some l => CRes.ok (some (free_at_front l))

/-- `free_at_end` seen from the call site (linkedlist.c:224-244): reads
`list->head` with no `NULL` guard on `list`. -/
def free_at_end_c (list : Option sllist) : CRes (Option sllist) :=
  match list with
  | none => CRes.ub
  | some l => CRes.ok (some (free_at_end l))

/-- `free_at_index` seen from the call site (linkedlist.c:260-286): reads
`list->head` with no `NULL` guard on `list`. -/
def free_at_index_c (list : Option sllist) (index : Nat) : CRes (Option sllist) :=
  match list with
  | none => CRes.ub
  | some l => CRes.ok (some (free_at_index l index))

/-- `sll_len` seen from the call site (linkedlist.c:300-308): reads
`list->head` with no `NULL` guard on `list`. -/
def sll_len_c (list : Option sllist) : CRes Nat :=
  match list with
  | none => CRes.ub
  | some l => CRes.ok (sll_len l)

/-- `print_sllist` seen from the call site (linkedlist.c:322-329): reads
`list->head` with no `NULL` guard on `list`. -/
def print_sllist_c {Out : Type} (list : Option sllist) (f : List Nat → Out) :
    CRes (List (OutEvent Out)) :=
  match list with
  | none => CRes.ub
  | some l => CRes.ok (print_sllist l f)

/-- One call of the list API in a test sequence (success path of the
allocations, valid pointers). -/
inductive SllOp where
  | insFront : Buf → SllOp
  | insEnd : Buf → SllOp
  | insAt : Buf → Nat → SllOp
  | rmFront : SllOp
  | rmEnd : SllOp
  | rmAt : Nat → SllOp

/-- Effect of one API call on the list state. -/
def apply_op : SllOp → sllist → sllist
  | SllOp.insFront d, l => insert_front l d
  | SllOp.insEnd d, l => insert_end l d
  | SllOp.insAt d i, l => insert_at_index l d i
  | SllOp.rmFront, l => free_at_front l
  | SllOp.rmEnd, l => free_at_end l
  | SllOp.rmAt i, l => free_at_index l i

/-- Run a sequence of API calls from a starting state. -/
def run_ops : List SllOp → sllist → sllist
  | [], l => l
  | op :: ops, l => run_ops ops (apply_op op l)

/-- Whether one call succeeds on state `l`: an insert succeeds unless its
index exceeds the current length (out of bounds), a removal succeeds when the
target node exists. -/
def op_succeeds : SllOp → sllist → Bool
  | SllOp.insFront _, _ => true
  | SllOp.insEnd _, _ => true
  | SllOp.insAt _ i, l => decide (i ≤ sll_len l)
  | SllOp.rmFront, l => !l.head.isEmpty
  | SllOp.rmEnd, l => !l.head.isEmpty
  | SllOp.rmAt i, l => decide (i < sll_len l)

/-- Whether a call is one of the three insert operations. -/
def op_is_insert : SllOp → Bool
  | SllOp.insFront _ => true
  | SllOp.insEnd _ => true
  | SllOp.insAt _ _ => true
  | SllOp.rmFront => false
  | SllOp.rmEnd => false
  | SllOp.rmAt _ => false

/-- Number of insert calls of the sequence that succeed along the run from `l`. -/
def succ_inserts : List SllOp → sllist → Nat
  | [], _ => 0
  | op :: ops, l =>
    (if op_is_insert op && op_succeeds op l then 1 else 0) +
      succ_inserts ops (apply_op op l)

/-- Number of remove calls of the sequence that succeed along the run from `l`. -/
def succ_removes : List SllOp → sllist → Nat
  | [], _ => 0
  | op :: ops, l =>
    (if !op_is_insert op && op_succeeds op l then 1 else 0) +
      succ_removes ops (apply_op op l)

/-- Every payload stored in the list has exactly `data_size` bytes. -/
def sizes_ok (l : sllist) : Bool :=
  l.head.all (fun p => p.length == l.data_size)

/-! Helper lemmas about the loops. -/

theorem sll_len_loop_eq_length (chain : List (List Nat)) :
    sll_len_loop chain = chain.length := by
  induction chain with
  | nil => rfl
  | cons c rest ih => simp [sll_len_loop, ih]

theorem sll_len_eq (l : sllist) : sll_len l = l.head.length :=
  sll_len_loop_eq_length l.head

theorem memcpy_length (d : Buf) (n : Nat) : (memcpy d n).length = n := by
  simp [memcpy]

theorem sll_append_last_eq (p : List Nat) (chain : List (List Nat)) :
    sll_append_last p chain = chain ++ [p] := by
  induction chain with
  | nil => rfl
  | cons c rest ih => simp [sll_append_last, ih]

theorem sll_insert_walk_none_iff (p : List Nat) :
    ∀ (s : Nat) (chain : List (List Nat)),
      sll_insert_walk p s chain = none ↔ chain.length ≤ s
  | 0, [] => by simp [sll_insert_walk]
  | 0, c :: rest => by simp [sll_insert_walk]
  | s + 1, [] => by simp [sll_insert_walk]
  | s + 1, c :: rest => by
    simp [sll_insert_walk, Option.map_eq_none',
      sll_insert_walk_none_iff p s rest]

theorem sll_insert_walk_some (p : List Nat) :
    ∀ (s : Nat) (chain out : List (List Nat)),
      sll_insert_walk p s chain = some out →
      out ≠ [] ∧ out.length = chain.length + 1 ∧ sll_remove_walk s out = some chain
  | 0, c :: rest, out, h => by
    simp only [sll_insert_walk, Option.some_inj] at h
    subst h
    exact ⟨by simp, by simp, rfl⟩
  | s + 1, c :: rest, out, h => by
    simp only [sll_insert_walk, Option.map_eq_some'] at h
    obtain ⟨o, ho, rfl⟩ := h
    obtain ⟨hne, hlen, hrm⟩ := sll_insert_walk_some p s rest o ho
    refine ⟨by simp, by simp [hlen], ?_⟩
    rcases o with _ | ⟨d, os⟩
    · exact absurd rfl hne
    · simp [sll_remove_walk, hrm]

theorem sll_remove_walk_none :
    ∀ (s : Nat) (chain : List (List Nat)), chain.length ≤ s + 1 →
      sll_remove_walk s chain = none
  | s, [], _ => by cases s <;> rfl
  | 0, [_], _ => rfl
  | _ + 1, [_], _ => rfl
  | 0, c :: d :: rest, h => by simp at h
  | s + 1, c :: d :: rest, h => by
    have hr : (d :: rest).length ≤ s + 1 := by simp at h ⊢; omega
    simp [sll_remove_walk, sll_remove_walk_none s (d :: rest) hr]

theorem sll_remove_walk_lt :
    ∀ (s : Nat) (chain : List (List Nat)), s + 1 < chain.length →
      ∃ out, sll_remove_walk s chain = some out ∧ out.length + 1 = chain.length
  | 0, c :: d :: rest, _ => ⟨c :: rest, rfl, by simp⟩
  | s + 1, c :: d :: rest, h => by
    have hr : s + 1 < (d :: rest).length := by simp at h ⊢; omega
    obtain ⟨out, ho, hl⟩ := sll_remove_walk_lt s (d :: rest) hr
    exact ⟨c :: out, by simp [sll_remove_walk, ho], by simp at hl ⊢; omega⟩
  | 0, [], h => by simp at h
  | 0, [_], h => by simp at h
  | s + 1, [], h => by simp at h
  | s + 1, [_], h => by simp at h

theorem sll_drop_last_length :
    ∀ chain : List (List Nat), (sll_drop_last chain).length = chain.length - 1
  | [] => rfl
  | [_] => rfl
  | c :: d :: rest => by
    have := sll_drop_last_length (d :: rest)
    simp [sll_drop_last] at this ⊢
    omega

/-! Length of each operation's result. -/

theorem sll_len_insert_front (l : sllist) (d : Buf) :
    sll_len (insert_front l d) = sll_len l + 1 := by
  simp [insert_front, sll_len_eq]

theorem sll_len_insert_end (l : sllist) (d : Buf) :
    sll_len (insert_end l d) = sll_len l + 1 := by
  simp [insert_end, sll_len_eq, sll_append_last_eq]

theorem sll_len_insert_at_index (l : sllist) (d : Buf) (i : Nat) :
    sll_len (insert_at_index l d i) =
      if i ≤ sll_len l then sll_len l + 1 else sll_len l := by
  rcases l with ⟨chain, sz⟩
  rcases i with _ | s
  · simp [insert_at_index, sll_len_eq]
  · rw [sll_len_eq]
    simp only [insert_at_index, Nat.succ_ne_zero, if_false, Nat.succ_sub_one]
    rcases ho : sll_insert_walk (memcpy d sz) s chain with _ | out
    · have hle : chain.length ≤ s := (sll_insert_walk_none_iff _ _ _).mp ho
      rw [if_neg (by simp [sll_len_eq]; omega)]
      simp [sll_len_eq]
    · obtain ⟨-, hlen, -⟩ := sll_insert_walk_some _ _ _ _ ho
      have hgt : ¬ chain.length ≤ s := by
        intro hle
        rw [(sll_insert_walk_none_iff _ _ _).mpr hle] at ho
        exact Option.noConfusion ho
      rw [if_pos (by simp [sll_len_eq]; omega)]
      simp [sll_len_eq, hlen]

theorem sll_len_free_at_front (l : sllist) :
    sll_len (free_at_front l) = sll_len l - 1 := by
  rcases l with ⟨chain, sz⟩
  rcases chain with _ | ⟨c, rest⟩ <;> simp [free_at_front, sll_len_eq]

theorem sll_len_free_at_end (l : sllist) :
    sll_len (free_at_end l) = sll_len l - 1 := by
  rcases l with ⟨chain, sz⟩
  rcases chain with _ | ⟨c, rest⟩
  · simp [free_at_end, sll_len_eq]
  · rcases rest with _ | ⟨e, rest2⟩
    · simp [free_at_end, sll_len_eq]
    · have := sll_drop_last_length (e :: rest2)
      simp [free_at_end, sll_len_eq] at this ⊢
      omega

theorem sll_len_free_at_index (l : sllist) (i : Nat) :
    sll_len (free_at_index l i) =
      if i < sll_len l then sll_len l - 1 else sll_len l := by
  rcases l with ⟨chain, sz⟩
  rcases chain with _ | ⟨c, rest⟩
  · simp [free_at_index, sll_len_eq]
  · rcases i with _ | s
    · simp [free_at_index, free_at_front, sll_len_eq]
    · simp only [free_at_index, Nat.succ_ne_zero, if_false, Nat.succ_sub_one]
      by_cases hlt : s + 1 < (c :: rest).length
      · obtain ⟨out, ho, hl⟩ := sll_remove_walk_lt s (c :: rest) hlt
        rw [ho]
        rw [if_pos (by simp [sll_len_eq] at hlt ⊢; omega)]
        simp [sll_len_eq] at hl ⊢
        omega
      · rw [sll_remove_walk_none s (c :: rest) (by omega)]
        rw [if_neg (by simpa [sll_len_eq] using hlt)]

theorem sll_insert_walk_append (p : List Nat) :
    ∀ (c : List Nat) (rest : List (List Nat)),
      sll_insert_walk p rest.length (c :: rest) = some (sll_append_last p (c :: rest))
  | _, [] => rfl
  | c, e :: rest => by
    simp [sll_insert_walk, sll_insert_walk_append p e rest, sll_append_last]

theorem print_loop_eq_map {Out : Type} (f : List Nat → Out) :
    ∀ chain : List (List Nat),
      print_loop f chain = chain.map (fun p => OutEvent.visit (f p))
  | [] => rfl
  | e :: rest => by simp [print_loop, print_loop_eq_map f rest]

theorem sll_insert_walk_of_le (l : sllist) (d : Buf) (s : Nat)
    (hi : s + 1 ≤ sll_len l) :
    insert_at_index_c true true (some l) (some d) (s + 1) =
      (CRes.ok (some (insert_at_index l d (s + 1))), 2, 0) := by
  have hlt : ¬ l.head.length ≤ s := by rw [sll_len_eq] at hi; omega
  rcases ho : sll_insert_walk (memcpy d l.data_size) s l.head with _ | out
  · exact absurd ((sll_insert_walk_none_iff _ _ _).mp ho) hlt
  · simp [insert_at_index_c, insert_at_index, ho]

/-- C2: for every list `L` and value `v`, `insert_at_index(L, v, sll_len(L))`
leaves `L` in the same state as `insert_end(L, v)` — index equal to the length
is the supported append boundary, not an out-of-bounds no-op — and the two
calls also agree whole (outcome and heap traffic) on every allocation
outcome. -/
theorem C2_insert_at_len_eq_insert_end (l : sllist) (d : Buf) (a1 a2 : Bool) :
    insert_at_index l d (sll_len l) = insert_end l d ∧
    insert_at_index_c a1 a2 (some l) (some d) (sll_len l) =
      insert_end_c a1 a2 (some l) (some d) := by
  have h1 : insert_at_index l d (sll_len l) = insert_end l d := by
    rcases l with ⟨chain, sz⟩
    rcases chain with _ | ⟨c, rest⟩
    · rfl
    · have hlen : sll_len ⟨c :: rest, sz⟩ = rest.length + 1 := by simp [sll_len_eq]
      rw [hlen]
      simp [insert_at_index, insert_end, sll_insert_walk_append]
  refine ⟨h1, ?_⟩
  rcases a1 <;> rcases a2
  · rfl
  · rfl
  · rfl
  · rcases hn : sll_len l with _ | s
    · rw [hn] at h1
      simp [insert_at_index_c, insert_end_c, h1]
    · rw [sll_insert_walk_of_le l d s (by omega)]
      simp [insert_end_c, ← hn, h1]

/-- C3: for every list `L` (in any state) and value `v`,
`insert_at_index(L, v, 0)` leaves `L` in the same state as
`insert_front(L, v)`: the new element occupies position 0 and the prior chain
becomes its successor; the two calls also agree whole on every combination of
null pointers and allocation outcomes. -/
theorem C3_insert_at_zero_eq_insert_front (l : sllist) (d : Buf) (a1 a2 : Bool)
    (list : Option sllist) (data : Option Buf) :
    insert_at_index l d 0 = insert_front l d ∧
    insert_at_index_c a1 a2 list data 0 = insert_front_c a1 a2 list data := by
  refine ⟨rfl, ?_⟩
  rcases list with _ | m <;> rcases data with _ | e <;> rcases a1 <;> rcases a2 <;> rfl

/-- C7: for every list `L` and every index `i ≥ sll_len(L)`,
`free_at_index(L, i)` leaves the list state — hence its length and the order
of its elements — unchanged: the out-of-bounds removal is a no-op. -/
theorem C7_free_at_index_oob (l : sllist) (i : Nat) (h : sll_len l ≤ i) :
    free_at_index l i = l := by
  rcases l with ⟨chain, sz⟩
  rcases chain with _ | ⟨c, rest⟩
  · rfl
  · rcases i with _ | s
    · simp [sll_len_eq] at h
    · have hns : (c :: rest).length ≤ s + 1 := by simpa [sll_len_eq] using h
      simp [free_at_index, sll_remove_walk_none s (c :: rest) hns]

/-- C7 witness: removing at index 2 of a 2-element list is a no-op. -/
theorem C7_witness :
    sll_len ⟨[[1], [2]], 1⟩ ≤ 2 ∧ free_at_index ⟨[[1], [2]], 1⟩ 2 = ⟨[[1], [2]], 1⟩ :=
  ⟨by decide, C7_free_at_index_oob ⟨[[1], [2]], 1⟩ 2 (by decide)⟩

/-- C8: `print_sllist` calls the caller-supplied visitor exactly once per
element, in head-to-tail order (its event trace is the map of `visit ∘ f` over
the chain, before its own final `printf`); it takes no mutable effect on the
list (in this embedding it returns only the output trace, mirroring the C loop
that only advances a local cursor).  Consequently, on an empty list,
`insert_front(A)`, `insert_front(B)`, `insert_end(C)` followed by traversal
visits exactly the payload sequence `[B, A, C]` (here `A`, `B`, `C` are the
one-byte values 10, 11, 12). -/
theorem C8_print_sllist_visit_order :
    (∀ (Out : Type) (l : sllist) (f : List Nat → Out),
      print_sllist l f =
        (l.head.map fun p => OutEvent.visit (f p)) ++ [OutEvent.emit "NULL\n"]) ∧
    print_sllist
        (insert_end
          (insert_front (insert_front (sllist_create 1) (fun _ => 10)) (fun _ => 11))
          (fun _ => 12))
        (fun p => p) =
      [OutEvent.visit [11], OutEvent.visit [10], OutEvent.visit [12],
        OutEvent.emit "NULL\n"] := by
  constructor
  · intro Out l f
    simp [print_sllist, print_loop_eq_map]
  · rfl

/-- C10: `print_sllist` produces one extra output action of its own after the
per-element visitor calls: the trace always ends with the literal marker
`"NULL\n"`, and on an empty (freshly created) list — zero visitor calls — the
trace is exactly that marker. -/
theorem C10_print_sllist_terminator :
    ∀ (Out : Type) (l : sllist) (f : List Nat → Out) (sz : Nat),
      (print_sllist l f).getLast? = some (OutEvent.emit "NULL\n") ∧
      print_sllist l f =
        print_loop f l.head ++ [OutEvent.emit "NULL\n"] ∧
      print_sllist (sllist_create sz) f = [OutEvent.emit "NULL\n"] := by
  intro Out l f sz
  refine ⟨?_, rfl, rfl⟩
  simp [print_sllist]

/-- C4: for every list `L`, buffer `v` and index `i`, inserting at index `i`
with `insert_at_index` and then immediately calling `free_at_index(L, i)`
restores `L` to exactly its prior state (same elements, same order): the
removal undoes a successful insertion, and when the insertion was an
out-of-bounds no-op the removal is one too. -/
theorem C4_insert_then_free_round_trip (l : sllist) (d : Buf) (i : Nat) :
    free_at_index (insert_at_index l d i) i = l := by
  rcases l with ⟨chain, sz⟩
  rcases i with _ | s
  · rfl
  · simp only [insert_at_index, Nat.succ_ne_zero, if_false, Nat.succ_sub_one]
    rcases ho : sll_insert_walk (memcpy d sz) s chain with _ | out
    · rcases chain with _ | ⟨c, rest⟩
      · rfl
      · have hle : (c :: rest).length ≤ s := (sll_insert_walk_none_iff _ _ _).mp ho
        simp [free_at_index, sll_remove_walk_none s (c :: rest) (by omega)]
    · obtain ⟨hne, hlen, hrm⟩ := sll_insert_walk_some _ _ _ _ ho
      rcases out with _ | ⟨c, outr⟩
      · exact absurd rfl hne
      · simp [free_at_index, hrm]

/-- C1 counterexample: `free_at_front` called on a null list reference is not
silently ignored — the body dereferences `list->head` with no guard, which is
undefined behaviour, not a normal return. -/
theorem C1_counterexample :
    free_at_front_c none = CRes.ub ∧ free_at_front_c none ≠ CRes.ok none :=
  ⟨rfl, by decide⟩

/-- C1 amended: only the three insert operations silently ignore a null/absent
list or value reference (they return with no action, no error and no heap
traffic); the removal, teardown, length and traversal operations have no guard
on the list reference and dereference it, so a null list there is undefined
behaviour rather than a silent no-op. -/
theorem C1_null_handling (a1 a2 : Bool) (l : sllist) (d : Buf) (i : Nat)
    (f : List Nat → Nat) :
    insert_front_c a1 a2 none (some d) = (CRes.ok none, 0, 0) ∧
    insert_front_c a1 a2 none none = (CRes.ok none, 0, 0) ∧
    insert_front_c a1 a2 (some l) none = (CRes.ok (some l), 0, 0) ∧
    insert_end_c a1 a2 none (some d) = (CRes.ok none, 0, 0) ∧
    insert_end_c a1 a2 none none = (CRes.ok none, 0, 0) ∧
    insert_end_c a1 a2 (some l) none = (CRes.ok (some l), 0, 0) ∧
    insert_at_index_c a1 a2 none (some d) i = (CRes.ok none, 0, 0) ∧
    insert_at_index_c a1 a2 none none i = (CRes.ok none, 0, 0) ∧
    insert_at_index_c a1 a2 (some l) none i = (CRes.ok (some l), 0, 0) ∧
    free_sllist_c none = CRes.ub ∧
    free_at_front_c none = CRes.ub ∧
    free_at_end_c none = CRes.ub ∧
    free_at_index_c none i = CRes.ub ∧
    sll_len_c none = CRes.ub ∧
    print_sllist_c none f = CRes.ub :=
  ⟨rfl, rfl, rfl, rfl, rfl, rfl, rfl, rfl, rfl, rfl, rfl, rfl, rfl, rfl, rfl⟩

/-- C6: for each of the three insert operations, failure of the node
allocation or of the payload allocation leaves the list in its prior state
with no partially linked node and with every `malloc`-obtained block passed
back to `free`; in particular, when the payload allocation fails after the
node allocation succeeded, the trace is exactly one block obtained and that
one block freed — the node is released before the function returns. -/
theorem C6_alloc_failure_rollback (a1 a2 : Bool) (l : sllist) (d : Buf) (i : Nat)
    (h : ¬(a1 = true ∧ a2 = true)) :
    (insert_front_c a1 a2 (some l) (some d)).1 = CRes.ok (some l) ∧
    (insert_front_c a1 a2 (some l) (some d)).2.1 =
      (insert_front_c a1 a2 (some l) (some d)).2.2 ∧
    (insert_end_c a1 a2 (some l) (some d)).1 = CRes.ok (some l) ∧
    (insert_end_c a1 a2 (some l) (some d)).2.1 =
      (insert_end_c a1 a2 (some l) (some d)).2.2 ∧
    (insert_at_index_c a1 a2 (some l) (some d) i).1 = CRes.ok (some l) ∧
    (insert_at_index_c a1 a2 (some l) (some d) i).2.1 =
      (insert_at_index_c a1 a2 (some l) (some d) i).2.2 ∧
    (a1 = true →
      (insert_front_c a1 a2 (some l) (some d)).2 = (1, 1) ∧
      (insert_end_c a1 a2 (some l) (some d)).2 = (1, 1) ∧
      (insert_at_index_c a1 a2 (some l) (some d) i).2 = (1, 1)) := by
  rcases a1 <;> rcases a2 <;>
    simp_all [insert_front_c, insert_end_c, insert_at_index_c]

/-- C6 witness: node allocation succeeds, payload allocation fails, on an
empty one-byte list — the call returns the prior state. -/
theorem C6_witness :
    ¬((true : Bool) = true ∧ (false : Bool) = true) ∧
    (insert_front_c true false (some ⟨[], 1⟩) (some fun _ => 0)).1 =
      CRes.ok (some ⟨[], 1⟩) ∧
    (insert_front_c true false (some ⟨[], 1⟩) (some fun _ => 0)).2 = (1, 1) :=
  ⟨by decide,
   (C6_alloc_failure_rollback true false ⟨[], 1⟩ (fun _ => 0) 0 (by decide)).1,
   ((C6_alloc_failure_rollback true false ⟨[], 1⟩ (fun _ => 0) 0
      (by decide)).2.2.2.2.2.2 rfl).1⟩

theorem run_ops_len_eq :
    ∀ (ops : List SllOp) (l : sllist),
      sll_len (run_ops ops l) + succ_removes ops l = sll_len l + succ_inserts ops l
  | [], l => by simp [run_ops, succ_removes, succ_inserts]
  | SllOp.insFront d :: ops, l => by
    have ih := run_ops_len_eq ops (apply_op (SllOp.insFront d) l)
    simp only [apply_op] at ih
    simp [run_ops, succ_removes, succ_inserts, op_is_insert, op_succeeds, apply_op,
      sll_len_insert_front] at ih ⊢
    omega
  | SllOp.insEnd d :: ops, l => by
    have ih := run_ops_len_eq ops (apply_op (SllOp.insEnd d) l)
    simp only [apply_op] at ih
    simp [run_ops, succ_removes, succ_inserts, op_is_insert, op_succeeds, apply_op,
      sll_len_insert_end] at ih ⊢
    omega
  | SllOp.insAt d i :: ops, l => by
    have ih := run_ops_len_eq ops (apply_op (SllOp.insAt d i) l)
    simp only [apply_op] at ih
    rw [sll_len_insert_at_index] at ih
    by_cases h : i ≤ sll_len l <;>
      simp [run_ops, succ_removes, succ_inserts, op_is_insert, op_succeeds, apply_op,
        h] at ih ⊢ <;>
      omega
  | SllOp.rmFront :: ops, l => by
    have ih := run_ops_len_eq ops (apply_op SllOp.rmFront l)
    simp only [apply_op] at ih
    rw [sll_len_free_at_front] at ih
    rcases l with ⟨chain, sz⟩
    rcases chain with _ | ⟨c, rest⟩ <;>
      simp [run_ops, succ_removes, succ_inserts, op_is_insert, op_succeeds, apply_op,
        sll_len_eq] at ih ⊢ <;>
      omega
  | SllOp.rmEnd :: ops, l => by
    have ih := run_ops_len_eq ops (apply_op SllOp.rmEnd l)
    simp only [apply_op] at ih
    rw [sll_len_free_at_end] at ih
    rcases l with ⟨chain, sz⟩
    rcases chain with _ | ⟨c, rest⟩ <;>
      simp [run_ops, succ_removes, succ_inserts, op_is_insert, op_succeeds, apply_op,
        sll_len_eq] at ih ⊢ <;>
      omega
  | SllOp.rmAt i :: ops, l => by
    have ih := run_ops_len_eq ops (apply_op (SllOp.rmAt i) l)
    simp only [apply_op] at ih
    rw [sll_len_free_at_index] at ih
    by_cases h : i < sll_len l <;>
      simp [run_ops, succ_removes, succ_inserts, op_is_insert, op_succeeds, apply_op,
        h] at ih ⊢ <;>
      omega

/-- C5: for every finite sequence of insert and remove operations applied to a
freshly created list, `sll_len` afterwards equals the number of insertions
that succeeded minus the number of removals that succeeded (and the latter
never exceeds the former). -/
theorem C5_len_is_net_insertions (ops : List SllOp) (sz : Nat) :
    sll_len (run_ops ops (sllist_create sz)) =
      succ_inserts ops (sllist_create sz) - succ_removes ops (sllist_create sz) ∧
    succ_removes ops (sllist_create sz) ≤ succ_inserts ops (sllist_create sz) := by
  have h := run_ops_len_eq ops (sllist_create sz)
  have h0 : sll_len (sllist_create sz) = 0 := rfl
  omega

theorem sll_insert_walk_mem (p : List Nat) :
    ∀ (s : Nat) (chain out : List (List Nat)),
      sll_insert_walk p s chain = some out → ∀ q ∈ out, q ∈ chain ∨ q = p
  | 0, [], out, h => by simp [sll_insert_walk] at h
  | 0, c :: rest, out, h => by
    simp only [sll_insert_walk, Option.some_inj] at h
    subst h
    intro q hq
    simp at hq
    rcases hq with rfl | rfl | hq
    · exact Or.inl (by simp)
    · exact Or.inr rfl
    · exact Or.inl (by simp [hq])
  | s + 1, [], out, h => by simp [sll_insert_walk] at h
  | s + 1, c :: rest, out, h => by
    simp only [sll_insert_walk, Option.map_eq_some'] at h
    obtain ⟨o, ho, rfl⟩ := h
    intro q hq
    simp at hq
    rcases hq with rfl | hq
    · exact Or.inl (by simp)
    · rcases sll_insert_walk_mem p s rest o ho q hq with hm | hp
      · exact Or.inl (by simp [hm])
      · exact Or.inr hp

theorem sll_remove_walk_mem :
    ∀ (s : Nat) (chain out : List (List Nat)),
      sll_remove_walk s chain = some out → ∀ q ∈ out, q ∈ chain
  | s, [], out, h => by cases s <;> simp [sll_remove_walk] at h
  | 0, [_], out, h => by simp [sll_remove_walk] at h
  | _ + 1, [_], out, h => by simp [sll_remove_walk] at h
  | 0, c :: e :: rest, out, h => by
    simp only [sll_remove_walk, Option.some_inj] at h
    subst h
    intro q hq
    simp at hq ⊢
    tauto
  | s + 1, c :: e :: rest, out, h => by
    simp only [sll_remove_walk, Option.map_eq_some'] at h
    obtain ⟨o, ho, rfl⟩ := h
    intro q hq
    simp at hq ⊢
    rcases hq with rfl | hq
    · tauto
    · have := sll_remove_walk_mem s (e :: rest) o ho q hq
      simp at this
      tauto

theorem sll_drop_last_mem :
    ∀ (chain : List (List Nat)), ∀ q ∈ sll_drop_last chain, q ∈ chain
  | [], q, hq => by simp [sll_drop_last] at hq
  | [_], q, hq => by simp [sll_drop_last] at hq
  | c :: e :: rest, q, hq => by
    simp [sll_drop_last] at hq ⊢
    rcases hq with rfl | hq
    · tauto
    · have := sll_drop_last_mem (e :: rest) q hq
      simp at this
      tauto

/-! Preservation of the `data_size` field. -/

theorem data_size_insert_front (l : sllist) (d : Buf) :
    (insert_front l d).data_size = l.data_size := rfl

theorem data_size_insert_end (l : sllist) (d : Buf) :
    (insert_end l d).data_size = l.data_size := rfl

theorem data_size_insert_at_index (l : sllist) (d : Buf) (i : Nat) :
    (insert_at_index l d i).data_size = l.data_size := by
  rcases i with _ | s
  · rfl
  · simp only [insert_at_index, Nat.succ_ne_zero, if_false, Nat.succ_sub_one]
    rcases ho : sll_insert_walk (memcpy d l.data_size) s l.head with _ | out <;>
      simp [ho]

theorem data_size_free_at_front (l : sllist) :
    (free_at_front l).data_size = l.data_size := by
  rcases l with ⟨chain, sz⟩
  rcases chain with _ | ⟨c, rest⟩ <;> rfl

theorem data_size_free_at_end (l : sllist) :
    (free_at_end l).data_size = l.data_size := by
  rcases l with ⟨chain, sz⟩
  rcases chain with _ | ⟨c, rest⟩
  · rfl
  · rcases rest with _ | ⟨e, rest2⟩ <;> rfl

theorem data_size_free_at_index (l : sllist) (i : Nat) :
    (free_at_index l i).data_size = l.data_size := by
  rcases l with ⟨chain, sz⟩
  rcases chain with _ | ⟨c, rest⟩
  · rfl
  · rcases i with _ | s
    · rfl
    · simp only [free_at_index, Nat.succ_ne_zero, if_false, Nat.succ_sub_one]
      rcases ho : sll_remove_walk s (c :: rest) with _ | out <;> simp [ho]

/-! Preservation of the payload-size invariant. -/

theorem sizes_ok_iff (l : sllist) :
    sizes_ok l = true ↔ ∀ p ∈ l.head, p.length = l.data_size := by
  simp [sizes_ok]

theorem sizes_ok_of_sub {l m : sllist} (hd : m.data_size = l.data_size)
    (hs : ∀ q ∈ m.head, q ∈ l.head) (h : sizes_ok l = true) :
    sizes_ok m = true := by
  rw [sizes_ok_iff] at h ⊢
  intro p hp
  rw [hd]
  exact h p (hs p hp)

theorem free_at_front_head_mem (l : sllist) :
    ∀ q ∈ (free_at_front l).head, q ∈ l.head := by
  rcases l with ⟨chain, sz⟩
  rcases chain with _ | ⟨c, rest⟩
  · intro q hq; exact hq
  · intro q hq
    simp [free_at_front] at hq ⊢
    tauto

theorem free_at_end_head_mem (l : sllist) :
    ∀ q ∈ (free_at_end l).head, q ∈ l.head := by
  rcases l with ⟨chain, sz⟩
  rcases chain with _ | ⟨c, rest⟩
  · intro q hq; exact hq
  · rcases rest with _ | ⟨e, rest2⟩
    · intro q hq; simp [free_at_end] at hq
    · intro q hq
      simp [free_at_end] at hq ⊢
      rcases hq with rfl | hq
      · tauto
      · have := sll_drop_last_mem (e :: rest2) q hq
        simp at this
        tauto

theorem free_at_index_head_mem (l : sllist) (i : Nat) :
    ∀ q ∈ (free_at_index l i).head, q ∈ l.head := by
  rcases l with ⟨chain, sz⟩
  rcases chain with _ | ⟨c, rest⟩
  · intro q hq; exact hq
  · rcases i with _ | s
    · intro q hq
      simp [free_at_index, free_at_front] at hq ⊢
      tauto
    · simp only [free_at_index, Nat.succ_ne_zero, if_false, Nat.succ_sub_one]
      rcases ho : sll_remove_walk s (c :: rest) with _ | out
      · intro q hq; exact hq
      · intro q hq
        exact sll_remove_walk_mem s (c :: rest) out ho q hq

theorem sizes_ok_insert_front (l : sllist) (d : Buf) (h : sizes_ok l = true) :
    sizes_ok (insert_front l d) = true := by
  rw [sizes_ok_iff] at h ⊢
  intro p hp
  simp [insert_front] at hp ⊢
  rcases hp with rfl | hp
  · exact memcpy_length d l.data_size
  · exact h p hp

theorem sizes_ok_insert_end (l : sllist) (d : Buf) (h : sizes_ok l = true) :
    sizes_ok (insert_end l d) = true := by
  rw [sizes_ok_iff] at h ⊢
  intro p hp
  simp [insert_end, sll_append_last_eq] at hp ⊢
  rcases hp with hp | rfl
  · exact h p hp
  · exact memcpy_length d l.data_size

theorem sizes_ok_insert_at_index (l : sllist) (d : Buf) (i : Nat)
    (h : sizes_ok l = true) : sizes_ok (insert_at_index l d i) = true := by
  rw [sizes_ok_iff] at h ⊢
  rcases i with _ | s
  · intro p hp
    simp [insert_at_index] at hp ⊢
    rcases hp with rfl | hp
    · exact memcpy_length d l.data_size
    · exact h p hp
  · simp only [insert_at_index, Nat.succ_ne_zero, if_false, Nat.succ_sub_one]
    rcases ho : sll_insert_walk (memcpy d l.data_size) s l.head with _ | out
    · intro p hp; exact h p hp
    · intro p hp
      simp at hp ⊢
      rcases sll_insert_walk_mem (memcpy d l.data_size) s l.head out ho p hp with hm | rfl
      · exact h p hm
      · exact memcpy_length d l.data_size

/-- C9: the element size `data_size` is fixed at construction by
`sllist_create` and left unchanged by every mutating operation; every element
copy reads exactly that many bytes (`memcpy` with `list->data_size`), so every
payload stored in the list keeps exactly `data_size` bytes (`sll_len` and
`print_sllist` return a count resp. an output trace and touch no field). -/
theorem C9_data_size_fixed (sz : Nat) (l : sllist) (d : Buf) (i : Nat)
    (h : sizes_ok l = true) :
    (sllist_create sz).data_size = sz ∧
    sizes_ok (sllist_create sz) = true ∧
    (insert_front l d).data_size = l.data_size ∧
    (insert_end l d).data_size = l.data_size ∧
    (insert_at_index l d i).data_size = l.data_size ∧
    (free_at_front l).data_size = l.data_size ∧
    (free_at_end l).data_size = l.data_size ∧
    (free_at_index l i).data_size = l.data_size ∧
    (memcpy d l.data_size).length = l.data_size ∧
    sizes_ok (insert_front l d) = true ∧
    sizes_ok (insert_end l d) = true ∧
    sizes_ok (insert_at_index l d i) = true ∧
    sizes_ok (free_at_front l) = true ∧
    sizes_ok (free_at_end l) = true ∧
    sizes_ok (free_at_index l i) = true :=
  ⟨rfl, rfl, rfl, rfl, data_size_insert_at_index l d i,
   data_size_free_at_front l, data_size_free_at_end l, data_size_free_at_index l i,
   memcpy_length d l.data_size,
   sizes_ok_insert_front l d h, sizes_ok_insert_end l d h,
   sizes_ok_insert_at_index l d i h,
   sizes_ok_of_sub (data_size_free_at_front l) (free_at_front_head_mem l) h,
   sizes_ok_of_sub (data_size_free_at_end l) (free_at_end_head_mem l) h,
   sizes_ok_of_sub (data_size_free_at_index l i) (free_at_index_head_mem l i) h⟩

/-- C9 witness: a two-byte list with one well-sized payload keeps its size
field and its invariant under a front insertion. -/
theorem C9_witness :
    sizes_ok ⟨[[7, 7]], 2⟩ = true ∧
    (sllist_create 3).data_size = 3 ∧
    sizes_ok (insert_front ⟨[[7, 7]], 2⟩ (fun _ => 9)) = true :=
  ⟨by decide,
   (C9_data_size_fixed 3 ⟨[[7, 7]], 2⟩ (fun _ => 9) 0 (by decide)).1,
   (C9_data_size_fixed 3 ⟨[[7, 7]], 2⟩ (fun _ => 9) 0
      (by decide)).2.2.2.2.2.2.2.2.2.1⟩
